import Mathlib

/-!
# Verification of the BESO cantilever optimization engine

Shallow embedding of `source/python/BESO/structural_beso.py` from the
Cantilever-Dataset repository: mesh and boundary-condition construction,
the trapezoidal load vector, the momentum-smoothed sensitivity
bookkeeping, the BESO topology-update phase, the incremental
factorization bookkeeping, and the patience-based convergence
controller.  Machine floats are modelled by exact rationals; the
sentinel value `-np.infty` is modelled by the bottom element of
`WithBot Rat`.
-/

attribute [local semireducible] Rat.mul Rat.inv Rat.add Rat.sub Rat.ofScientific

namespace Beso

/-- Source constant `VV = 0.015625`, the maximal volume variation. -/
def VV : ℚ := 15625 / 1000000

/-- Source constant `TV = 0.031250`, the maximal topology variation. -/
def TV : ℚ := 31250 / 1000000

/-- Source constant `patience = 20`, the patience stop criterion. -/
def patience : Nat := 20

/-- Source constant `momentum = 0.50`, the sensitivity momentum. -/
def momentum : ℚ := 1 / 2

/-- Source constant `epsk = 1e-6`, the soft-kill parameter. -/
def epsk : ℚ := 1 / 1000000

/-- Source constant `Ly = 1.0`, the cantilever height. -/
def Ly : ℚ := 1

/-- Source constant `small = 1e-14`, the float comparison slack. -/
def small : ℚ := 1 / 100000000000000

/-- Number of elements along the x axis: `Nx = 2*Ny` (line 215). -/
def Nx (Ny : Nat) : Nat := 2 * Ny

/-- Total number of elements `N = Nx*Ny` (line 216). -/
def Nelems (Ny : Nat) : Nat := Nx Ny * Ny

/-- Element size `esize = Ly/Ny` (line 217). -/
def esize (Ny : Nat) : ℚ := Ly / (Ny : ℚ)

/-- The y coordinate of node row `j` of any mesh column:
`coor[:,1] = esize*ycoor - 0.5*Ly` with `ycoor` running `0..Ny`
(lines 239-242).  The left-edge nodes are the first `Ny+1` mesh nodes
and the right-edge nodes are the last `Ny+1`, both carrying exactly
this y pattern. -/
def nodeY (Ny j : Nat) : ℚ := esize Ny * (j : ℚ) - Ly / 2

/-- Support-band membership of left-edge node row `j`:
`abs(bc_ycoor - bc_pos*Ly) < bc_rad*Ly + small` (line 264). -/
def bcMask (Ny : Nat) (bc_pos bc_rad : ℚ) (j : Nat) : Bool :=
  decide (|nodeY Ny j - bc_pos * Ly| < bc_rad * Ly + small)

/-- Load-band membership of right-edge node row `j`:
`abs(ld_ycoor - ld_pos*Ly) < ld_rad*Ly + small` (line 281). -/
def ldMask (Ny : Nat) (ld_pos ld_rad : ℚ) (j : Nat) : Bool :=
  decide (|nodeY Ny j - ld_pos * Ly| < ld_rad * Ly + small)

/-- The constrained left-edge node rows `bc_ids` (lines 270-271). -/
def bcIds (Ny : Nat) (p r : ℚ) : List Nat :=
  (List.range (Ny + 1)).filter (fun j => bcMask Ny p r j)

/-- The loaded right-edge node rows `ld_ids` (lines 287-288). -/
def ldIds (Ny : Nat) (p r : ℚ) : List Nat :=
  (List.range (Ny + 1)).filter (fun j => ldMask Ny p r j)

/-- The load-band elements `ld_ele`: rightmost-column elements adjacent
to a loaded node, `ld_mask_ele = ld_mask[1:] | ld_mask[:-1]` applied to
`arange((Nx-1)*Ny, Nx*Ny)` (lines 282-284). -/
def ldEle (Ny : Nat) (p r : ℚ) : List Nat :=
  ((List.range Ny).filter
      (fun jr => ldMask Ny p r (jr + 1) || ldMask Ny p r jr)).map
    (fun jr => (Nx Ny - 1) * Ny + jr)

/-- Vertical load weight assigned to right-edge node row `j`
(lines 289-296): for a single loaded node a unit point load `-1.0`;
for `n >= 2` loaded nodes the trapezoidal weights `ld_val = -1/(n-1)`
on interior nodes and `0.5*ld_val` on the two extreme nodes. -/
def loadWeight (ids : List Nat) (j : Nat) : ℚ :=
  if j ∈ ids then
    if ids.length = 1 then -1
    else
      let v : ℚ := -1 / ((ids.length : ℚ) - 1)
      if j = ids.headI ∨ j = (ids.getLast?).getD 0 then v / 2 else v
  else 0

/-- Failure modes of the boundary-condition stage: the explicit
insufficient-constraint exit (lines 265-269), and the index error
raised by `ld_lim = np.array([ld_ele[0], ld_ele[-1]])` (line 285) when
the load band contains no node. -/
inductive BCError where
  | insufficientConstraint
  | emptyLoadLimits
deriving DecidableEq

/-- Data produced by a successful boundary-condition stage.  `fgRight`
lists the vertical load weight of each right-edge node row (all other
entries of the global load vector stay zero). -/
structure BCResult where
  bc_ids : List Nat
  ld_ids : List Nat
  ld_ele : List Nat
  fgRight : List ℚ
deriving DecidableEq

/-- The boundary-condition stage (lines 262-297), in source order: the
support check runs first, before the load vector and before any
assembly or factorization work; then the load limits `ld_lim` are read
from `ld_ele` (failing on an empty load band); then the load weights
are assigned. -/
def bcStage (Ny : Nat) (bc_pos bc_rad ld_pos ld_rad : ℚ) :
    Except BCError BCResult :=
  let bids := bcIds Ny bc_pos bc_rad
  if bids.length < 2 then Except.error BCError.insufficientConstraint
  else
    let lids := ldIds Ny ld_pos ld_rad
    let lele := ldEle Ny ld_pos ld_rad
    if lele.isEmpty then Except.error BCError.emptyLoadLimits
    else Except.ok ⟨bids, lids, lele, (List.range (Ny + 1)).map (loadWeight lids)⟩

/-- Sensitivity values: rationals extended with a bottom element that
models the sentinel `-np.infty` written into `alpha_m` (line 450). -/
abbrev Sens := List (WithBot ℚ)

/-- Value of the sensitivity vector at element `e` (out-of-range reads
never occur in the source; the default is the sentinel). -/
def mval (m : Sens) (e : Nat) : WithBot ℚ := m.getD e ⊥

/-- Target volume `Vt = int(N/2)` (line 373). -/
def Vt (Ny : Nat) : Nat := Nelems Ny / 2

/-- Python `int()` applied to a rational: truncation toward zero. -/
def pyInt (q : ℚ) : ℤ := if 0 ≤ q then ⌊q⌋ else -⌊-q⌋

/-- Maximal volume change `dVmax = max([1, int(VV*N)])` (line 374). -/
def dVmax (Ny : Nat) : Nat := max 1 (pyInt (VV * (Nelems Ny : ℚ))).toNat

/-- Maximal topological change `dXmax = max([2, TV*N])` (line 375);
kept as a (possibly non-integer) number exactly as in the source. -/
def dXmax (Ny : Nat) : ℚ := max 2 (TV * (Nelems Ny : ℚ))

/-- Indices of solid elements, `solid = np.argwhere(x)[:,0]`
(line 456). -/
def solidList (x : List Bool) : List Nat :=
  (List.range x.length).filter (fun e => x.getD e false)

/-- Indices of void elements, `void = np.argwhere(~x)[:,0]`
(line 457). -/
def voidList (x : List Bool) : List Nat :=
  (List.range x.length).filter (fun e => !x.getD e false)

/-- Comparison used by `np.argsort(alpha_m[...])`: ascending order of
the momentum-smoothed sensitivity. -/
def mle (m : Sens) (a b : Nat) : Prop := mval m a ≤ mval m b

instance (m : Sens) (a b : Nat) : Decidable (mle m a b) := by
  unfold mle; infer_instance

/-- Solid elements sorted by ascending sensitivity,
`solid[sorted_solid]` (line 458); insertion sort models the
deterministic `np.argsort`. -/
def sortedSolid (m : Sens) (x : List Bool) : List Nat :=
  (solidList x).insertionSort (mle m)

/-- Void elements sorted by ascending sensitivity,
`void[sorted_void]` (line 459). -/
def sortedVoid (m : Sens) (x : List Bool) : List Nat :=
  (voidList x).insertionSort (mle m)

/-- Number of elements removed by the volume-reduction loop:
`range(min([vol-Vt,dVmax]))` (line 462). -/
def redCount (VtN dV vol : Nat) : Nat := min (vol - VtN) dV

/-- Effect on the topology of the reduction loop's removals,
`x[es] = False` for each removed element (line 464). -/
def remApply (x : List Bool) (rs : List Nat) : List Bool :=
  rs.foldl (fun a e => a.set e false) x

/-- Effect on the topology of the swap loop's flips, `x[es] = False;
x[ev] = True` for each executed pair (lines 501-502). -/
def swapApply (x : List Bool) (ps : List (Nat × Nat)) : List Bool :=
  ps.foldl (fun a p => (a.set p.1 false).set p.2 true) x

/-- Outcome of the topology-update phase of one iteration: the new
topology, the elements removed by the reduction loop, and the
(solid, void) pairs flipped by the swap loop. -/
structure UpdateResult where
  x : List Bool
  removed : List Nat
  swaps : List (Nat × Nat)
deriving DecidableEq

/-- Solid elements in descending sensitivity order: the source reads
`solid[sorted_solid[-1-i]]` from the top of the ascending list
(lines 463 and 497). -/
def descSolid (m : Sens) (x : List Bool) : List Nat :=
  (sortedSolid m x).reverse

/-- The elements removed by the volume-reduction loop: the
`min(vol-Vt, dVmax)` solid elements of largest sensitivity
(lines 461-464). -/
def removedList (VtN dV : Nat) (m : Sens) (x : List Bool) : List Nat :=
  (descSolid m x).take (redCount VtN dV (solidList x).length)

/-- Iteration bound of the swap loop,
`min(len(sorted_void), int((dXmax-count)/2))` (line 496). -/
def swapLimit (VtN dV : Nat) (dX : ℚ) (m : Sens) (x : List Bool) : Nat :=
  min (sortedVoid m x).length
    (pyInt ((dX - (redCount VtN dV (solidList x).length : ℚ)) / 2)).toNat

/-- The candidate pairs visited by the swap loop: the next solid
elements from the top of the descending list
(`solid[sorted_solid[-1-i-count]]`, line 497) paired with void
elements from the bottom of the ascending list
(`void[sorted_void[i]]`, line 498). -/
def candPairs (VtN dV : Nat) (dX : ℚ) (m : Sens) (x : List Bool) :
    List (Nat × Nat) :=
  (((descSolid m x).drop (redCount VtN dV (solidList x).length)).zip
    (sortedVoid m x)).take (swapLimit VtN dV dX m x)

/-- The pairs actually executed by the swap loop: candidates up to the
first pair with `alpha_m[es] < alpha_m[ev]`, at which the loop breaks
(lines 499-500). -/
def swapList (VtN dV : Nat) (dX : ℚ) (m : Sens) (x : List Bool) :
    List (Nat × Nat) :=
  (candPairs VtN dV dX m x).takeWhile
    (fun p => !(decide (mval m p.1 < mval m p.2)))

/-- The topology-update phase (lines 454-559): the reduction loop's
removals followed by the swap loop's flips (`x[es] = False;
x[ev] = True`, lines 464 and 501-502). -/
def updateTopology (VtN dV : Nat) (dX : ℚ) (m : Sens) (x : List Bool) :
    UpdateResult :=
  ⟨swapApply (remApply x (removedList VtN dV m x)) (swapList VtN dV dX m x),
    removedList VtN dV m x, swapList VtN dV dX m x⟩

/-- Largest absolute value of a vector, `max(abs(v))` (lines 448-449),
0 on an empty vector. -/
def maxAbs (l : List ℚ) : ℚ := l.foldr (fun a b => max |a| b) 0

/-- The momentum step of one iteration (lines 447-450): zero the
load-band entries of the previous momentum vector, blend with the
normalized filtered sensitivities, re-normalize, then force the
load-band entries to the `-np.infty` sentinel.  Rational division by
zero is the Lean convention `q/0 = 0`; a genuine run has a nonzero
filtered maximum. -/
def momentumStep (ld : List Nat) (mPrev : Sens) (af : List ℚ) : Sens :=
  let prevZ : List ℚ := (List.range af.length).map
    (fun e => if e ∈ ld then 0 else (mPrev.getD e ⊥).unbot' 0)
  let fmax := maxAbs af
  let blended : List ℚ := (List.range af.length).map
    (fun e => momentum * prevZ.getD e 0 + (1 - momentum) * (af.getD e 0 / fmax))
  let mmax := maxAbs blended
  (List.range af.length).map
    (fun e => if e ∈ ld then (⊥ : WithBot ℚ)
              else ((blended.getD e 0 / mmax : ℚ) : WithBot ℚ))

/-- Per-element stiffness coefficients of the reduced matrix assembled
directly from a topology: `pen = 1` on solid elements and `pen = epsk`
on void elements (lines 308-311).  The reduced stiffness matrix is the
linear combination `sum_e pen(e) * R(Ke_e)`, so equality of coefficient
vectors is equality of the represented matrices. -/
def penalty (x : List Bool) : List ℚ :=
  x.map (fun b => if b then 1 else epsk)

/-- Coefficient effect of the reduction loop's factorization updates,
by the external update contract of the factorization backend (spec
section 4.3): `factor.update_inplace(H, subtract=True)` on a removed
element subtracts that element's stiffness variation `(1-epsk)*Ke`
(line 493), since `H @ H.T` equals the element's stiffness variation
restricted to its free DOFs (lines 89-106). -/
def remCoef (c : List ℚ) (rs : List Nat) : List ℚ :=
  rs.foldl (fun a e => a.set e (a.getD e 0 - (1 - epsk))) c

/-- Coefficient effect of the swap loop's factorization updates: a
subtract-update on the removed solid and an add-update on the
inserted void (lines 532 and 559). -/
def swapCoef (c : List ℚ) (ps : List (Nat × Nat)) : List ℚ :=
  ps.foldl
    (fun a p => (a.set p.1 (a.getD p.1 0 - (1 - epsk))).set p.2
      (a.getD p.2 0 + (1 - epsk))) c

/-- Combined coefficient effect of one iteration's incremental
factorization updates. -/
def applyUpdates (c : List ℚ) (u : UpdateResult) : List ℚ :=
  swapCoef (remCoef c u.removed) u.swaps

/-- Optimization-engine state threaded through the iterations: the
topology `x`, the coefficients of the matrix represented by the
incrementally updated factorization, and the momentum vector
`alpha_m`. -/
structure EngineState where
  x : List Bool
  fcoef : List ℚ
  m : Sens
deriving DecidableEq

/-- Initial engine state (lines 219, 354, 371): all-solid topology, a
full factorization of the all-solid reduced matrix, and a zero
momentum vector. -/
def engineInit (N : Nat) : EngineState :=
  ⟨List.replicate N true, List.replicate N 1,
    List.replicate N ((0 : ℚ) : WithBot ℚ)⟩

/-- One optimization iteration as far as the topology, the
factorization and the momentum vector are concerned: the momentum step
feeding the topology update, whose flips drive the incremental
factorization updates.  The filtered sensitivity vector `af` produced
by the external `str_filter` kernel is an input of the iteration. -/
def engineStep (VtN dV : Nat) (dX : ℚ) (ld : List Nat)
    (s : EngineState) (af : List ℚ) : EngineState :=
  let m1 := momentumStep ld s.m af
  let u := updateTopology VtN dV dX m1 s.x
  ⟨u.x, applyUpdates s.fcoef u, m1⟩

/-- A whole optimization run over a list of per-iteration filtered
sensitivity vectors. -/
def engineRun (Ny : Nat) (ld : List Nat) (afs : List (List ℚ)) :
    EngineState :=
  afs.foldl (engineStep (Vt Ny) (dVmax Ny) (dXmax Ny) ld)
    (engineInit (Nelems Ny))

/-- State of the convergence controller (lines 381-384): the retained
best objective `obj_opt` (initially `np.infty`, modelled by the top
element), the retained best topology `x_opt` (initially unset), the
wait counter and the loop flag `keep_going`. -/
structure ConvState where
  objOpt : WithTop ℚ
  xOpt : Option (List Bool)
  waiting : Nat
  keepGoing : Bool
deriving DecidableEq

/-- Initial controller state: `obj_opt = np.infty`, `keep_going =
True`, `waiting = 0` (lines 381-383), no best topology yet. -/
def convInit : ConvState := ⟨⊤, none, 0, true⟩

/-- The strict improvement test `obj < (1.0-small) * obj_opt`
(line 583); against the initial infinite `obj_opt` every finite
compliance passes. -/
def improves (obj : ℚ) (objOpt : WithTop ℚ) : Bool :=
  objOpt.recTopCoe true (fun v => decide (obj < (1 - small) * v))

/-- One iteration's observation fed to the convergence check: the
post-update topology, its volume `sum(x)` and the compliance
`obj = dot(ug, fg)` (lines 577-580). -/
structure IterObs where
  x : List Bool
  vol : Nat
  obj : ℚ

/-- The per-iteration convergence check (lines 581-591): only
iterations whose volume equals the target compare compliance against
the strict threshold; passing records the topology/objective pair and
resets the wait counter, failing increments it, and the loop flag
falls once the counter reaches `patience`. -/
def convStep (VtN : Nat) (s : ConvState) (ob : IterObs) : ConvState :=
  if s.keepGoing then
    if ob.vol = VtN then
      if improves ob.obj s.objOpt then
        ⟨(ob.obj : WithTop ℚ), some ob.x, 0, true⟩
      else
        ⟨s.objOpt, s.xOpt, s.waiting + 1,
          if s.waiting + 1 = patience then false else true⟩
    else s
  else s

/-- Inductive invariant behind C10: once the wait counter is positive
or the loop has terminated, a finite best objective exists, and a
finite best objective always comes with a recorded best topology. -/
def ConvInv (s : ConvState) : Prop :=
  ((1 ≤ s.waiting ∨ s.keepGoing = false) → s.objOpt ≠ ⊤) ∧
  (s.objOpt ≠ ⊤ → ∃ t, s.xOpt = some t)

/-- Run invariant behind C8: the topology has the mesh's length, every
load-band element is solid, and the volume has not fallen below the
target. -/
def LoadInv (N VtN : Nat) (ld : List Nat) (s : EngineState) : Prop :=
  s.x.length = N ∧ (∀ e ∈ ld, s.x.getD e false = true) ∧
  VtN ≤ (solidList s.x).length

/-! ## Basic list bookkeeping lemmas -/

theorem getD_true_lt {x : List Bool} {e : Nat}
    (h : x.getD e false = true) : e < x.length := by
  by_contra hge
  rw [List.getD_eq_getElem?_getD, List.getElem?_eq_none (Nat.le_of_not_lt hge)] at h
  cases h

theorem getD_set_self {α : Type} {x : List α} {e : Nat} (h : e < x.length)
    (b d : α) : (x.set e b).getD e d = b := by
  rw [List.getD_eq_getElem?_getD, List.getElem?_set_self h]
  rfl

theorem getD_set_ne {α : Type} {x : List α} {i e : Nat} (h : i ≠ e)
    (b d : α) : (x.set i b).getD e d = x.getD e d := by
  rw [List.getD_eq_getElem?_getD, List.getElem?_set_ne h,
    ← List.getD_eq_getElem?_getD]

theorem mem_solidList {x : List Bool} {e : Nat} :
    e ∈ solidList x ↔ e < x.length ∧ x.getD e false = true := by
  simp [solidList, List.mem_filter, List.mem_range]

theorem mem_voidList {x : List Bool} {e : Nat} :
    e ∈ voidList x ↔ e < x.length ∧ x.getD e false = false := by
  simp [voidList, List.mem_filter, List.mem_range]

theorem nodup_solidList (x : List Bool) : (solidList x).Nodup :=
  (List.nodup_range _).filter _

theorem nodup_voidList (x : List Bool) : (voidList x).Nodup :=
  (List.nodup_range _).filter _

theorem solid_void_disjoint {x : List Bool} {e : Nat}
    (hs : e ∈ solidList x) (hv : e ∈ voidList x) : False := by
  rw [mem_solidList] at hs
  rw [mem_voidList] at hv
  rw [hs.2] at hv
  cases hv.2

theorem penalty_length (x : List Bool) : (penalty x).length = x.length :=
  List.length_map x _

theorem penalty_getD {x : List Bool} {e : Nat} (h : e < x.length) :
    (penalty x).getD e 0 = if x.getD e false then 1 else epsk := by
  rw [penalty, List.getD_eq_getElem?_getD, List.getElem?_map,
    List.getElem?_eq_getElem h, List.getD_eq_getElem?_getD,
    List.getElem?_eq_getElem h]
  rfl

theorem penalty_set (x : List Bool) (e : Nat) (b : Bool) :
    penalty (x.set e b) = (penalty x).set e (if b then 1 else epsk) :=
  List.map_set

theorem length_solidList (x : List Bool) :
    (solidList x).length =
      (List.range x.length).countP (fun e => x.getD e false) := by
  rw [solidList, List.countP_eq_length_filter]

theorem countP_flip_dec {l : List Nat} {p q : Nat → Bool} {a : Nat}
    (hnd : l.Nodup) (ha : a ∈ l) (hpa : p a = true) (hqa : q a = false)
    (hag : ∀ b ∈ l, b ≠ a → p b = q b) :
    l.countP q + 1 = l.countP p := by
  induction l with
  | nil => cases ha
  | cons b t ih =>
    by_cases hab : a = b
    · subst hab
      have hat : a ∉ t := (List.nodup_cons.mp hnd).1
      have hqt : t.countP q = t.countP p := by
        apply List.countP_congr
        intro c hc
        have hca : c ≠ a := fun hEq => hat (hEq ▸ hc)
        rw [hag c (List.mem_cons_of_mem _ hc) hca]
      simp [List.countP_cons, hpa, hqa, hqt, Nat.add_comm]
    · have hat : a ∈ t := by
        rcases List.mem_cons.mp ha with h | h
        · exact absurd h hab
        · exact h
      have hba : b ≠ a := fun hEq => hab hEq.symm
      have hrec := ih (List.nodup_cons.mp hnd).2 hat
        (fun c hc hca => hag c (List.mem_cons_of_mem _ hc) hca)
      rw [List.countP_cons, List.countP_cons,
        hag b (List.mem_cons_self b t) hba]
      omega

theorem solidList_length_set_false {x : List Bool} {e : Nat}
    (he : x.getD e false = true) :
    (solidList (x.set e false)).length + 1 = (solidList x).length := by
  have hlt : e < x.length := getD_true_lt he
  rw [length_solidList, length_solidList, List.length_set]
  exact countP_flip_dec (List.nodup_range _) (List.mem_range.mpr hlt)
    he (by rw [getD_set_self hlt])
    (fun b _ hbe => (getD_set_ne (fun h => hbe h.symm) false false).symm)

theorem solidList_length_set_true {x : List Bool} {e : Nat}
    (hlt : e < x.length) (he : x.getD e false = false) :
    (solidList (x.set e true)).length = (solidList x).length + 1 := by
  rw [length_solidList, length_solidList, List.length_set]
  exact (countP_flip_dec (List.nodup_range _) (List.mem_range.mpr hlt)
    (by rw [getD_set_self hlt]) he
    (fun b _ hbe => (getD_set_ne (fun h => hbe h.symm) true false))).symm

theorem zip_map_fst_sublist {α β : Type} :
    ∀ (l₁ : List α) (l₂ : List β),
      List.Sublist ((l₁.zip l₂).map Prod.fst) l₁
  | [], _ => by simp
  | _ :: _, [] => by simp
  | a :: t₁, b :: t₂ => by
    simpa using (zip_map_fst_sublist t₁ t₂).cons₂ a

theorem zip_map_snd_sublist {α β : Type} :
    ∀ (l₁ : List α) (l₂ : List β),
      List.Sublist ((l₁.zip l₂).map Prod.snd) l₂
  | [], _ => by simp
  | _ :: _, [] => by simp
  | a :: t₁, b :: t₂ => by
    simpa using (zip_map_snd_sublist t₁ t₂).cons₂ b

/-! ## Behaviour of the two update folds -/

theorem remApply_spec (rs : List Nat) (x : List Bool)
    (hnd : rs.Nodup) (hs : ∀ e ∈ rs, x.getD e false = true) :
    (remApply x rs).length = x.length ∧
    (∀ e, e ∉ rs → (remApply x rs).getD e false = x.getD e false) ∧
    (∀ e ∈ rs, (remApply x rs).getD e false = false) ∧
    (solidList (remApply x rs)).length + rs.length = (solidList x).length ∧
    remCoef (penalty x) rs = penalty (remApply x rs) := by
  induction rs generalizing x with
  | nil =>
    exact ⟨rfl, fun _ _ => rfl, fun _ h => absurd h (List.not_mem_nil _),
      by simp [remApply], rfl⟩
  | cons r t ih =>
    have hr : x.getD r false = true := hs r (List.mem_cons_self r t)
    have hrlt : r < x.length := getD_true_lt hr
    have hrt : r ∉ t := (List.nodup_cons.mp hnd).1
    have hs' : ∀ e ∈ t, (x.set r false).getD e false = true := by
      intro e he
      have hre : r ≠ e := fun h => hrt (h ▸ he)
      rw [getD_set_ne hre]
      exact hs e (List.mem_cons_of_mem _ he)
    have hred : remApply x (r :: t) = remApply (x.set r false) t := rfl
    have hih := ih (x.set r false) (List.nodup_cons.mp hnd).2 hs'
    refine ⟨?_, ?_, ?_, ?_, ?_⟩
    · rw [hred, hih.1, List.length_set]
    · intro e he
      have het : e ∉ t := fun h => he (List.mem_cons_of_mem _ h)
      have hre : r ≠ e := fun h => he (h ▸ List.mem_cons_self r t)
      rw [hred, hih.2.1 e het, getD_set_ne hre]
    · intro e he
      rcases List.mem_cons.mp he with rfl | het
      · rw [hred, hih.2.1 e hrt, getD_set_self hrlt]
      · exact hih.2.2.1 e het
    · have hstep := solidList_length_set_false hr
      have := hih.2.2.2.1
      rw [hred, List.length_cons]
      omega
    · have hpen1 : (penalty x).set r ((penalty x).getD r 0 - (1 - epsk))
          = penalty (x.set r false) := by
        rw [penalty_getD hrlt, hr, if_pos rfl, penalty_set]
        norm_num
      calc remCoef (penalty x) (r :: t)
          = remCoef ((penalty x).set r ((penalty x).getD r 0 - (1 - epsk))) t := rfl
        _ = remCoef (penalty (x.set r false)) t := by rw [hpen1]
        _ = penalty (remApply (x.set r false) t) := hih.2.2.2.2
        _ = penalty (remApply x (r :: t)) := by rw [hred]

theorem swapApply_spec (ps : List (Nat × Nat)) (x : List Bool)
    (h1 : (ps.map Prod.fst).Nodup) (h2 : (ps.map Prod.snd).Nodup)
    (h3 : ∀ p ∈ ps, x.getD p.1 false = true)
    (h4 : ∀ p ∈ ps, x.getD p.2 false = false)
    (h4l : ∀ p ∈ ps, p.2 < x.length)
    (h5 : ∀ p ∈ ps, ∀ q ∈ ps, p.1 ≠ q.2) :
    (swapApply x ps).length = x.length ∧
    (∀ e, (∀ p ∈ ps, e ≠ p.1 ∧ e ≠ p.2) →
      (swapApply x ps).getD e false = x.getD e false) ∧
    (solidList (swapApply x ps)).length = (solidList x).length ∧
    swapCoef (penalty x) ps = penalty (swapApply x ps) := by
  induction ps generalizing x with
  | nil => exact ⟨rfl, fun _ _ => rfl, rfl, rfl⟩
  | cons p t ih =>
    have hp1 : x.getD p.1 false = true := h3 p (List.mem_cons_self p t)
    have hp2 : x.getD p.2 false = false := h4 p (List.mem_cons_self p t)
    have hp1lt : p.1 < x.length := getD_true_lt hp1
    have hp2lt : p.2 < x.length := h4l p (List.mem_cons_self p t)
    have hp12 : p.1 ≠ p.2 :=
      h5 p (List.mem_cons_self p t) p (List.mem_cons_self p t)
    have hx' : swapApply x (p :: t)
        = swapApply ((x.set p.1 false).set p.2 true) t := rfl
    have ht1 : (t.map Prod.fst).Nodup := (List.nodup_cons.mp h1).2
    have ht2 : (t.map Prod.snd).Nodup := (List.nodup_cons.mp h2).2
    have hq1p1 : ∀ q ∈ t, q.1 ≠ p.1 := by
      intro q hq hEq
      exact (List.nodup_cons.mp h1).1 (hEq ▸ List.mem_map_of_mem Prod.fst hq)
    have hq2p2 : ∀ q ∈ t, q.2 ≠ p.2 := by
      intro q hq hEq
      exact (List.nodup_cons.mp h2).1 (hEq ▸ List.mem_map_of_mem Prod.snd hq)
    have hq1p2 : ∀ q ∈ t, q.1 ≠ p.2 :=
      fun q hq => h5 q (List.mem_cons_of_mem _ hq) p (List.mem_cons_self p t)
    have hq2p1 : ∀ q ∈ t, q.2 ≠ p.1 :=
      fun q hq hEq =>
        h5 p (List.mem_cons_self p t) q (List.mem_cons_of_mem _ hq) hEq.symm
    have h3' : ∀ q ∈ t, ((x.set p.1 false).set p.2 true).getD q.1 false = true := by
      intro q hq
      rw [getD_set_ne (fun h => hq1p2 q hq h.symm),
        getD_set_ne (fun h => hq1p1 q hq h.symm)]
      exact h3 q (List.mem_cons_of_mem _ hq)
    have h4' : ∀ q ∈ t, ((x.set p.1 false).set p.2 true).getD q.2 false = false := by
      intro q hq
      rw [getD_set_ne (fun h => hq2p2 q hq h.symm),
        getD_set_ne (fun h => hq2p1 q hq h.symm)]
      exact h4 q (List.mem_cons_of_mem _ hq)
    have h4l' : ∀ q ∈ t, q.2 < ((x.set p.1 false).set p.2 true).length := by
      intro q hq
      rw [List.length_set, List.length_set]
      exact h4l q (List.mem_cons_of_mem _ hq)
    have h5' : ∀ q ∈ t, ∀ q' ∈ t, q.1 ≠ q'.2 :=
      fun q hq q' hq' =>
        h5 q (List.mem_cons_of_mem _ hq) q' (List.mem_cons_of_mem _ hq')
    have hih := ih ((x.set p.1 false).set p.2 true) ht1 ht2 h3' h4' h4l' h5'
    refine ⟨?_, ?_, ?_, ?_⟩
    · rw [hx', hih.1, List.length_set, List.length_set]
    · intro e he
      have hep := he p (List.mem_cons_self p t)
      have het : ∀ q ∈ t, e ≠ q.1 ∧ e ≠ q.2 :=
        fun q hq => he q (List.mem_cons_of_mem _ hq)
      rw [hx', hih.2.1 e het, getD_set_ne (fun h => hep.2 h.symm),
        getD_set_ne (fun h => hep.1 h.symm)]
    · have hdec := solidList_length_set_false hp1
      have hfalse : (x.set p.1 false).getD p.2 false = false := by
        rw [getD_set_ne hp12]
        exact hp2
      have hinc := solidList_length_set_true
        (by rw [List.length_set]; exact hp2lt) hfalse
      rw [hx', hih.2.2.1, hinc]
      omega
    · have hc1 : (penalty x).set p.1 ((penalty x).getD p.1 0 - (1 - epsk))
          = penalty (x.set p.1 false) := by
        rw [penalty_getD hp1lt, hp1, if_pos rfl, penalty_set]
        norm_num
      have hgd2 : (penalty x).getD p.2 0 = epsk := by
        rw [penalty_getD hp2lt, hp2]
        rfl
      have hone : epsk + (1 - epsk) = (1 : ℚ) := by ring
      have hrhs : penalty ((x.set p.1 false).set p.2 true)
          = (penalty (x.set p.1 false)).set p.2 1 := by
        rw [penalty_set, if_pos rfl]
      calc swapCoef (penalty x) (p :: t)
          = swapCoef (((penalty x).set p.1 ((penalty x).getD p.1 0 - (1 - epsk))).set p.2
              ((penalty x).getD p.2 0 + (1 - epsk))) t := by
              simp only [swapCoef, List.foldl_cons]
        _ = swapCoef (penalty ((x.set p.1 false).set p.2 true)) t := by
              rw [hc1, hgd2, hone, ← hrhs]
        _ = penalty (swapApply ((x.set p.1 false).set p.2 true) t) := hih.2.2.2
        _ = penalty (swapApply x (p :: t)) := by rw [hx']

/-! ## Structure of the topology-update phase -/

theorem descSolid_perm (m : Sens) (x : List Bool) :
    (descSolid m x).Perm (solidList x) :=
  ((sortedSolid m x).reverse_perm).trans
    (List.perm_insertionSort (mle m) (solidList x))

theorem descSolid_nodup (m : Sens) (x : List Bool) :
    (descSolid m x).Nodup :=
  ((descSolid_perm m x).nodup_iff).mpr (nodup_solidList x)

theorem descSolid_length (m : Sens) (x : List Bool) :
    (descSolid m x).length = (solidList x).length :=
  (descSolid_perm m x).length_eq

theorem sortedVoid_perm (m : Sens) (x : List Bool) :
    (sortedVoid m x).Perm (voidList x) :=
  List.perm_insertionSort (mle m) (voidList x)

theorem removedList_length (VtN dV : Nat) (m : Sens) (x : List Bool) :
    (removedList VtN dV m x).length
      = redCount VtN dV (solidList x).length := by
  rw [removedList, List.length_take, descSolid_length]
  exact Nat.min_eq_left
    (Nat.le_trans (Nat.min_le_left _ _) (Nat.sub_le _ _))

theorem removedList_nodup (VtN dV : Nat) (m : Sens) (x : List Bool) :
    (removedList VtN dV m x).Nodup :=
  (List.take_sublist _ _).nodup (descSolid_nodup m x)

theorem removedList_subset (VtN dV : Nat) (m : Sens) (x : List Bool) :
    ∀ e ∈ removedList VtN dV m x, e ∈ solidList x := fun _ he =>
  (descSolid_perm m x).mem_iff.mp ((List.take_sublist _ _).subset he)

theorem removed_drop_disjoint (VtN dV : Nat) (m : Sens) (x : List Bool) :
    ∀ e ∈ removedList VtN dV m x,
      e ∉ (descSolid m x).drop (redCount VtN dV (solidList x).length) := by
  have h := descSolid_nodup m x
  rw [← List.take_append_drop (redCount VtN dV (solidList x).length)
    (descSolid m x), List.nodup_append] at h
  exact h.2.2

theorem mem_swapList_cand {VtN dV : Nat} {dX : ℚ} {m : Sens}
    {x : List Bool} {p : Nat × Nat} (hp : p ∈ swapList VtN dV dX m x) :
    p.1 ∈ (descSolid m x).drop (redCount VtN dV (solidList x).length) ∧
      p.2 ∈ sortedVoid m x := by
  have hc : p ∈ candPairs VtN dV dX m x :=
    (List.takeWhile_sublist _).subset hp
  have hz := (List.take_sublist _ _).subset hc
  exact List.of_mem_zip hz

theorem mem_swapList_solid {VtN dV : Nat} {dX : ℚ} {m : Sens}
    {x : List Bool} {p : Nat × Nat} (hp : p ∈ swapList VtN dV dX m x) :
    p.1 ∈ solidList x :=
  (descSolid_perm m x).mem_iff.mp
    ((List.drop_sublist _ _).subset (mem_swapList_cand hp).1)

theorem mem_swapList_void {VtN dV : Nat} {dX : ℚ} {m : Sens}
    {x : List Bool} {p : Nat × Nat} (hp : p ∈ swapList VtN dV dX m x) :
    p.2 ∈ voidList x :=
  (sortedVoid_perm m x).mem_iff.mp (mem_swapList_cand hp).2

theorem swapList_guard {VtN dV : Nat} {dX : ℚ} {m : Sens}
    {x : List Bool} {p : Nat × Nat} (hp : p ∈ swapList VtN dV dX m x) :
    ¬(mval m p.1 < mval m p.2) := by
  have := List.mem_takeWhile_imp hp
  simpa using this

theorem swapList_fst_nodup (VtN dV : Nat) (dX : ℚ) (m : Sens)
    (x : List Bool) :
    ((swapList VtN dV dX m x).map Prod.fst).Nodup := by
  have hsub : List.Sublist ((swapList VtN dV dX m x).map Prod.fst)
      ((((descSolid m x).drop (redCount VtN dV (solidList x).length)).zip
        (sortedVoid m x)).map Prod.fst) :=
    ((List.takeWhile_sublist _).trans (List.take_sublist _ _)).map _
  have hdrop : (((descSolid m x).drop
      (redCount VtN dV (solidList x).length)).zip
        (sortedVoid m x)).map Prod.fst
      |>.Nodup :=
    (zip_map_fst_sublist _ _).nodup
      ((List.drop_sublist _ _).nodup (descSolid_nodup m x))
  exact hsub.nodup hdrop

theorem swapList_snd_nodup (VtN dV : Nat) (dX : ℚ) (m : Sens)
    (x : List Bool) :
    ((swapList VtN dV dX m x).map Prod.snd).Nodup := by
  have hsub : List.Sublist ((swapList VtN dV dX m x).map Prod.snd)
      ((((descSolid m x).drop (redCount VtN dV (solidList x).length)).zip
        (sortedVoid m x)).map Prod.snd) :=
    ((List.takeWhile_sublist _).trans (List.take_sublist _ _)).map _
  have hvd : (sortedVoid m x).Nodup :=
    ((sortedVoid_perm m x).nodup_iff).mpr (nodup_voidList x)
  exact hsub.nodup ((zip_map_snd_sublist _ _).nodup hvd)

theorem swapList_length_le (VtN dV : Nat) (dX : ℚ) (m : Sens)
    (x : List Bool) :
    (swapList VtN dV dX m x).length
      ≤ (pyInt ((dX - (redCount VtN dV (solidList x).length : ℚ)) / 2)).toNat := by
  have h1 : (swapList VtN dV dX m x).length
      ≤ (candPairs VtN dV dX m x).length :=
    (List.takeWhile_sublist _).length_le
  have h2 : (candPairs VtN dV dX m x).length ≤ swapLimit VtN dV dX m x := by
    rw [candPairs, List.length_take]
    exact Nat.min_le_left _ _
  exact Nat.le_trans (Nat.le_trans h1 h2) (Nat.min_le_right _ _)

theorem updateTopology_x_spec (VtN dV : Nat) (dX : ℚ) (m : Sens)
    (x : List Bool) :
    (updateTopology VtN dV dX m x).x.length = x.length ∧
    (solidList (updateTopology VtN dV dX m x).x).length
        + redCount VtN dV (solidList x).length = (solidList x).length ∧
    applyUpdates (penalty x) (updateTopology VtN dV dX m x)
        = penalty (updateTopology VtN dV dX m x).x ∧
    (∀ e, e ∉ removedList VtN dV m x →
      (∀ p ∈ swapList VtN dV dX m x, e ≠ p.1 ∧ e ≠ p.2) →
      (updateTopology VtN dV dX m x).x.getD e false = x.getD e false) := by
  have hrem := remApply_spec (removedList VtN dV m x) x
    (removedList_nodup VtN dV m x)
    (fun e he => (mem_solidList.mp (removedList_subset VtN dV m x e he)).2)
  have hs1 : ∀ p ∈ swapList VtN dV dX m x,
      (remApply x (removedList VtN dV m x)).getD p.1 false = true := by
    intro p hp
    have hout : p.1 ∉ removedList VtN dV m x := by
      intro hin
      exact removed_drop_disjoint VtN dV m x p.1 hin (mem_swapList_cand hp).1
    rw [hrem.2.1 p.1 hout]
    exact (mem_solidList.mp (mem_swapList_solid hp)).2
  have hs2 : ∀ p ∈ swapList VtN dV dX m x,
      (remApply x (removedList VtN dV m x)).getD p.2 false = false := by
    intro p hp
    have hv := mem_swapList_void hp
    have hout : p.2 ∉ removedList VtN dV m x := by
      intro hin
      exact solid_void_disjoint (removedList_subset VtN dV m x p.2 hin) hv
    rw [hrem.2.1 p.2 hout]
    exact (mem_voidList.mp hv).2
  have hs2l : ∀ p ∈ swapList VtN dV dX m x,
      p.2 < (remApply x (removedList VtN dV m x)).length := by
    intro p hp
    rw [hrem.1]
    exact (mem_voidList.mp (mem_swapList_void hp)).1
  have hs5 : ∀ p ∈ swapList VtN dV dX m x,
      ∀ q ∈ swapList VtN dV dX m x, p.1 ≠ q.2 := by
    intro p hp q hq hEq
    exact solid_void_disjoint (hEq ▸ mem_swapList_solid hp)
      (mem_swapList_void hq)
  have hswap := swapApply_spec (swapList VtN dV dX m x)
    (remApply x (removedList VtN dV m x))
    (swapList_fst_nodup VtN dV dX m x) (swapList_snd_nodup VtN dV dX m x)
    hs1 hs2 hs2l hs5
  refine ⟨?_, ?_, ?_, ?_⟩
  · rw [updateTopology, hswap.1, hrem.1]
  · have h1 := hswap.2.2.1
    have h2 := hrem.2.2.2.1
    rw [removedList_length] at h2
    show (solidList (swapApply (remApply x (removedList VtN dV m x))
        (swapList VtN dV dX m x))).length
      + redCount VtN dV (solidList x).length = (solidList x).length
    omega
  · rw [updateTopology, applyUpdates]
    show swapCoef (remCoef (penalty x) (removedList VtN dV m x))
        (swapList VtN dV dX m x) = _
    rw [hrem.2.2.2.2, hswap.2.2.2]
  · intro e he1 he2
    rw [updateTopology]
    show (swapApply (remApply x (removedList VtN dV m x))
        (swapList VtN dV dX m x)).getD e false = _
    rw [hswap.2.1 e he2, hrem.2.1 e he1]

/-! ## Per-iteration caps (claim C4) and the swap guard (claim C2) -/

theorem pyInt_toNat_le {q : ℚ} (h : 0 ≤ q) :
    (((pyInt q).toNat : ℤ) : ℚ) ≤ q := by
  rw [pyInt, if_pos h, Int.toNat_of_nonneg (Int.floor_nonneg.mpr h)]
  exact Int.floor_le q

theorem dVmax_le_dXmax (Ny : Nat) : ((dVmax Ny : Nat) : ℚ) ≤ dXmax Ny := by
  rw [dVmax, dXmax]
  have hN : (0 : ℚ) ≤ (Nelems Ny : ℚ) := Nat.cast_nonneg _
  have hVV : 0 ≤ VV * (Nelems Ny : ℚ) := by
    apply mul_nonneg _ hN
    norm_num [VV]
  have ht : (((pyInt (VV * (Nelems Ny : ℚ))).toNat : Nat) : ℚ)
      ≤ TV * (Nelems Ny : ℚ) := by
    have := pyInt_toNat_le hVV
    push_cast at this ⊢
    refine le_trans this ?_
    apply mul_le_mul_of_nonneg_right _ hN
    norm_num [VV, TV]
  rw [Nat.cast_max]
  apply max_le
  · exact le_trans (by norm_num) (le_max_left 2 _)
  · exact le_trans ht (le_max_right _ _)

/-- C4: in every iteration the reduction loop removes exactly
`min(vol - Vt, dVmax)` distinct solid elements, so the volume never
drops below the target `Vt`; the swap loop flips disjoint solid/void
pairs whose flips stay within the remaining budget `dXmax - count`;
hence the per-iteration flips respect the `dVmax` (reduction) and
`dXmax` (total change) caps. -/
theorem volume_and_change_caps (Ny : Nat) (m : Sens) (x : List Bool)
    (_hx : x.length = Nelems Ny) :
    (updateTopology (Vt Ny) (dVmax Ny) (dXmax Ny) m x).removed.length
        = min ((solidList x).length - Vt Ny) (dVmax Ny) ∧
    (updateTopology (Vt Ny) (dVmax Ny) (dXmax Ny) m x).removed.Nodup ∧
    (∀ e ∈ (updateTopology (Vt Ny) (dVmax Ny) (dXmax Ny) m x).removed,
        e ∈ solidList x) ∧
    (updateTopology (Vt Ny) (dVmax Ny) (dXmax Ny) m x).removed.length
        ≤ dVmax Ny ∧
    (solidList (updateTopology (Vt Ny) (dVmax Ny) (dXmax Ny) m x).x).length
        + min ((solidList x).length - Vt Ny) (dVmax Ny)
        = (solidList x).length ∧
    (Vt Ny ≤ (solidList x).length →
      Vt Ny ≤ (solidList
        (updateTopology (Vt Ny) (dVmax Ny) (dXmax Ny) m x).x).length) ∧
    (∀ p ∈ (updateTopology (Vt Ny) (dVmax Ny) (dXmax Ny) m x).swaps,
        p.1 ∈ solidList x ∧ p.2 ∈ voidList x) ∧
    ((updateTopology (Vt Ny) (dVmax Ny) (dXmax Ny) m x).swaps.map
        Prod.fst).Nodup ∧
    ((updateTopology (Vt Ny) (dVmax Ny) (dXmax Ny) m x).swaps.map
        Prod.snd).Nodup ∧
    2 * ((updateTopology (Vt Ny) (dVmax Ny) (dXmax Ny) m x).swaps.length : ℚ)
        ≤ dXmax Ny
          - ((updateTopology (Vt Ny) (dVmax Ny) (dXmax Ny) m x).removed.length : ℚ) ∧
    ((updateTopology (Vt Ny) (dVmax Ny) (dXmax Ny) m x).removed.length : ℚ)
        + 2 * ((updateTopology (Vt Ny) (dVmax Ny) (dXmax Ny) m x).swaps.length : ℚ)
        ≤ dXmax Ny := by
  clear _hx
  have hspec := updateTopology_x_spec (Vt Ny) (dVmax Ny) (dXmax Ny) m x
  have hlen : (updateTopology (Vt Ny) (dVmax Ny) (dXmax Ny) m x).removed.length
      = min ((solidList x).length - Vt Ny) (dVmax Ny) :=
    removedList_length (Vt Ny) (dVmax Ny) m x
  have hcount_le : min ((solidList x).length - Vt Ny) (dVmax Ny) ≤ dVmax Ny :=
    Nat.min_le_right _ _
  have hq : 0 ≤ (dXmax Ny
      - (redCount (Vt Ny) (dVmax Ny) (solidList x).length : ℚ)) / 2 := by
    have h1 : ((redCount (Vt Ny) (dVmax Ny) (solidList x).length : Nat) : ℚ)
        ≤ (dVmax Ny : ℚ) := by
      exact_mod_cast Nat.min_le_right ((solidList x).length - Vt Ny) (dVmax Ny)
    have h2 := dVmax_le_dXmax Ny
    have := le_trans h1 h2
    linarith
  have hswlen := swapList_length_le (Vt Ny) (dVmax Ny) (dXmax Ny) m x
  have hswq : ((swapList (Vt Ny) (dVmax Ny) (dXmax Ny) m x).length : ℚ)
      ≤ (dXmax Ny
        - (redCount (Vt Ny) (dVmax Ny) (solidList x).length : ℚ)) / 2 := by
    have hcast : (((swapList (Vt Ny) (dVmax Ny) (dXmax Ny) m x).length : Nat) : ℚ)
        ≤ (((pyInt ((dXmax Ny
          - (redCount (Vt Ny) (dVmax Ny) (solidList x).length : ℚ)) / 2)).toNat
            : Nat) : ℚ) := by
      exact_mod_cast hswlen
    refine le_trans hcast ?_
    have := pyInt_toNat_le hq
    push_cast at this ⊢
    exact this
  refine ⟨hlen, removedList_nodup _ _ m x, removedList_subset _ _ m x,
    le_trans (le_of_eq hlen) hcount_le, ?_, ?_, ?_, ?_, ?_, ?_, ?_⟩
  · have h := hspec.2.1
    simp only [redCount] at h
    exact h
  · intro hVt
    have h := hspec.2.1
    have hred : redCount (Vt Ny) (dVmax Ny) (solidList x).length
        ≤ (solidList x).length - Vt Ny := Nat.min_le_left _ _
    omega
  · exact fun p hp => ⟨mem_swapList_solid hp, mem_swapList_void hp⟩
  · exact swapList_fst_nodup _ _ _ m x
  · exact swapList_snd_nodup _ _ _ m x
  · have h2 : ((swapList (Vt Ny) (dVmax Ny) (dXmax Ny) m x).length : ℚ) * 2
        ≤ dXmax Ny - (redCount (Vt Ny) (dVmax Ny) (solidList x).length : ℚ) := by
      have := mul_le_mul_of_nonneg_right hswq (by norm_num : (0:ℚ) ≤ 2)
      calc ((swapList (Vt Ny) (dVmax Ny) (dXmax Ny) m x).length : ℚ) * 2
          ≤ ((dXmax Ny - (redCount (Vt Ny) (dVmax Ny)
              (solidList x).length : ℚ)) / 2) * 2 := this
        _ = dXmax Ny - (redCount (Vt Ny) (dVmax Ny)
              (solidList x).length : ℚ) := by ring
    show 2 * ((swapList (Vt Ny) (dVmax Ny) (dXmax Ny) m x).length : ℚ)
        ≤ dXmax Ny - ((removedList (Vt Ny) (dVmax Ny) m x).length : ℚ)
    have h3 : ((removedList (Vt Ny) (dVmax Ny) m x).length : ℚ)
        = (redCount (Vt Ny) (dVmax Ny) (solidList x).length : ℚ) := by
      exact_mod_cast removedList_length (Vt Ny) (dVmax Ny) m x
    rw [h3]
    linarith
  · show ((removedList (Vt Ny) (dVmax Ny) m x).length : ℚ)
        + 2 * ((swapList (Vt Ny) (dVmax Ny) (dXmax Ny) m x).length : ℚ) ≤ dXmax Ny
    have h2 : 2 * ((swapList (Vt Ny) (dVmax Ny) (dXmax Ny) m x).length : ℚ)
        ≤ dXmax Ny - (redCount (Vt Ny) (dVmax Ny) (solidList x).length : ℚ) := by
      linarith [mul_le_mul_of_nonneg_left hswq (by norm_num : (0:ℚ) ≤ 2)]
    have h3 : ((removedList (Vt Ny) (dVmax Ny) m x).length : ℚ)
        = (redCount (Vt Ny) (dVmax Ny) (solidList x).length : ℚ) := by
      exact_mod_cast removedList_length (Vt Ny) (dVmax Ny) m x
    linarith

/-- Witness for `volume_and_change_caps` on a concrete `Ny = 1`
instance: two solid elements, one above target, exactly one removal. -/
theorem volume_and_change_caps_witness :
    (updateTopology (Vt 1) (dVmax 1) (dXmax 1)
        [((0 : ℚ) : WithBot ℚ), ((0 : ℚ) : WithBot ℚ)] [true, true]).removed.length
      = min ((solidList [true, true]).length - Vt 1) (dVmax 1) :=
  (volume_and_change_caps 1 [((0 : ℚ) : WithBot ℚ), ((0 : ℚ) : WithBot ℚ)]
    [true, true] rfl).1

/-- C2 counterexample: on a concrete state with an exact sensitivity
tie between the candidate solid and the candidate void, the swap phase
executes the pair, although the claim demands that a pair is swapped
only when the void's smoothed sensitivity strictly exceeds the solid's
and that an exact tie halts swapping. -/
theorem swap_tie_executes :
    (updateTopology (Vt 1) (dVmax 1) (dXmax 1)
        [((1 : ℚ) : WithBot ℚ), ((1 : ℚ) : WithBot ℚ)] [true, false]).swaps
      = [(0, 1)] ∧
    mval [((1 : ℚ) : WithBot ℚ), ((1 : ℚ) : WithBot ℚ)] 1
      = mval [((1 : ℚ) : WithBot ℚ), ((1 : ℚ) : WithBot ℚ)] 0 := by
  constructor
  · rfl
  · rfl

/-- C2 amended: the swap phase executes a candidate (solid, void) pair
exactly while the void's smoothed sensitivity does not strictly exceed
the solid's: every executed pair satisfies `m[ev] ≤ m[es]`, the loop
breaking at the first pair with `m[es] < m[ev]`; an exact tie is
therefore swapped, not halted. -/
theorem swap_guard_amended (VtN dV : Nat) (dX : ℚ) (m : Sens)
    (x : List Bool) (p : Nat × Nat)
    (hp : p ∈ (updateTopology VtN dV dX m x).swaps) :
    mval m p.2 ≤ mval m p.1 := by
  have hp' : p ∈ swapList VtN dV dX m x := hp
  exact not_lt.mp (swapList_guard hp')

/-- Witness for `swap_guard_amended` on a concrete executed swap. -/
theorem swap_guard_amended_witness :
    mval [((2 : ℚ) : WithBot ℚ), ((0 : ℚ) : WithBot ℚ)] 1
      ≤ mval [((2 : ℚ) : WithBot ℚ), ((0 : ℚ) : WithBot ℚ)] 0 :=
  swap_guard_amended (Vt 1) (dVmax 1) (dXmax 1)
    [((2 : ℚ) : WithBot ℚ), ((0 : ℚ) : WithBot ℚ)] [true, false] (0, 1)
    (by decide)

/-- C5: an optimization instance fails with the insufficient-constraint
configuration error precisely when fewer than two left-edge nodes lie
in the support band; the check is the first act of the
boundary-condition stage, before the load vector, the assembly and any
factorization, and the model returns the error with no retry. -/
theorem bc_insufficient_iff (Ny : Nat) (_hNy : 1 ≤ Ny) (p r lp lr : ℚ) :
    bcStage Ny p r lp lr = Except.error BCError.insufficientConstraint ↔
      (bcIds Ny p r).length < 2 := by
  unfold bcStage
  by_cases h : (bcIds Ny p r).length < 2
  · simp [h]
  · simp only [if_neg h]
    constructor
    · intro hEq
      by_cases h2 : (ldEle Ny lp lr).isEmpty
      · rw [if_pos h2] at hEq
        cases hEq
      · rw [if_neg h2] at hEq
        cases hEq
    · intro h2
      exact absurd h2 h

/-- Witness for `bc_insufficient_iff`: a support band far from the
beam constrains no node on a `Ny = 2` mesh. -/
theorem bc_insufficient_iff_witness :
    bcStage 2 10 0 0 (1/8) = Except.error BCError.insufficientConstraint :=
  (bc_insufficient_iff 2 (by decide) 10 0 0 (1/8)).mpr (by decide)

/-- C3 (code-bug evaluation): when the load band misses every
right-edge node (`n = 0`) the stage fails while reading the load
limits from the empty `ld_ele` array, instead of completing with a
zero load vector as the dead `if ld_num == 0: pass` branch intends. -/
theorem load_band_empty_fails :
    bcStage 2 0 (1/2) 10 (1/8) = Except.error BCError.emptyLoadLimits := by
  rfl

/-! ## Convergence controller (claims C6, C7, C10) -/

theorem improves_top (obj : ℚ) : improves obj ⊤ = true := rfl

theorem improves_coe (obj v : ℚ) :
    improves obj (v : WithTop ℚ) = decide (obj < (1 - small) * v) := rfl

/-- C6: how the wait counter and the terminal state evolve.  On an
executed iteration: a volume above target leaves the whole controller
state unchanged; a target-volume iteration passing the strict test
`obj < (1-small)*obj_opt` records the topology/objective and resets
the counter; a failing one keeps the retained pair, increments the
counter, and the loop reaches the terminal state exactly when the
counter reaches `patience`. -/
theorem convergence_step_spec (VtN : Nat) (s : ConvState) (ob : IterObs)
    (hrun : s.keepGoing = true) :
    (ob.vol ≠ VtN → convStep VtN s ob = s) ∧
    (ob.vol = VtN → improves ob.obj s.objOpt = true →
      convStep VtN s ob = ⟨(ob.obj : WithTop ℚ), some ob.x, 0, true⟩) ∧
    (ob.vol = VtN → improves ob.obj s.objOpt = false →
      (convStep VtN s ob).objOpt = s.objOpt ∧
      (convStep VtN s ob).xOpt = s.xOpt ∧
      (convStep VtN s ob).waiting = s.waiting + 1 ∧
      ((convStep VtN s ob).keepGoing = false ↔ s.waiting + 1 = patience)) := by
  refine ⟨?_, ?_, ?_⟩
  · intro hv
    simp [convStep, hrun, hv]
  · intro hv hi
    simp [convStep, hrun, hv, hi]
  · intro hv hi
    by_cases hw : s.waiting + 1 = patience <;>
      simp [convStep, hrun, hv, hi, hw]

/-- Witness for `convergence_step_spec`: the first target-volume
iteration always records its observation. -/
theorem convergence_step_spec_witness :
    convStep 1 convInit ⟨[true], 1, 5⟩
      = ⟨((5 : ℚ) : WithTop ℚ), some [true], 0, true⟩ :=
  (convergence_step_spec 1 convInit ⟨[true], 1, 5⟩ rfl).2.1 rfl rfl

theorem convStep_objOpt (VtN : Nat) (s : ConvState) (ob : IterObs)
    (hobj : 0 ≤ ob.obj) (hs : (0 : WithTop ℚ) ≤ s.objOpt) :
    ((convStep VtN s ob).objOpt = s.objOpt ∨
      (convStep VtN s ob).objOpt < s.objOpt) ∧
    (0 : WithTop ℚ) ≤ (convStep VtN s ob).objOpt := by
  by_cases hk : s.keepGoing = true
  · by_cases hv : ob.vol = VtN
    · by_cases hi : improves ob.obj s.objOpt = true
      · have hnew : (convStep VtN s ob).objOpt = (ob.obj : WithTop ℚ) := by
          simp [convStep, hk, hv, hi]
        constructor
        · right
          rw [hnew]
          by_cases htop : s.objOpt = ⊤
          · rw [htop]
            exact WithTop.coe_lt_top _
          · obtain ⟨v, hvq⟩ := WithTop.ne_top_iff_exists.mp htop
            rw [← hvq] at hi hs ⊢
            rw [improves_coe] at hi
            have hlt : ob.obj < (1 - small) * v := of_decide_eq_true hi
            have hv0 : (0 : ℚ) ≤ v := by
              rw [← WithTop.coe_zero, WithTop.coe_le_coe] at hs
              exact hs
            have hsv : 0 ≤ small * v := by
              apply mul_nonneg _ hv0
              norm_num [small]
            have : ob.obj < v := by nlinarith
            exact WithTop.coe_lt_coe.mpr this
        · rw [hnew, ← WithTop.coe_zero, WithTop.coe_le_coe]
          exact hobj
      · have hsame : (convStep VtN s ob).objOpt = s.objOpt := by
          simp [convStep, hk, hv, hi]
        exact ⟨Or.inl hsame, hsame ▸ hs⟩
    · have hsame : (convStep VtN s ob).objOpt = s.objOpt := by
        simp [convStep, hk, hv]
      exact ⟨Or.inl hsame, hsame ▸ hs⟩
  · have hsame : (convStep VtN s ob).objOpt = s.objOpt := by
      simp [convStep, hk]
    exact ⟨Or.inl hsame, hsame ▸ hs⟩

theorem scanl_head {α β : Type} (f : α → β → α) (a : α) (l : List β) :
    (List.scanl f a l).head? = some a := by
  cases l <;> rfl

theorem convRun_chain (VtN : Nat) (s : ConvState) (obs : List IterObs)
    (hpos : ∀ ob ∈ obs, 0 ≤ ob.obj) (hs : (0 : WithTop ℚ) ≤ s.objOpt) :
    List.Chain' (fun a b : WithTop ℚ => b = a ∨ b < a)
      ((obs.scanl (convStep VtN) s).map ConvState.objOpt) := by
  induction obs generalizing s with
  | nil => simp
  | cons ob t ih =>
    have hstep := convStep_objOpt VtN s ob
      (hpos ob (List.mem_cons_self ob t)) hs
    rw [List.scanl, List.map_cons]
    rw [List.chain'_cons']
    constructor
    · intro h hh
      rw [List.head?_map, scanl_head] at hh
      simp only [Option.map_some', Option.mem_def, Option.some.injEq] at hh
      rw [← hh]
      exact hstep.1
    · exact ih (convStep VtN s ob)
        (fun o ho => hpos o (List.mem_cons_of_mem _ ho)) hstep.2

/-- C7: across one optimization run the retained best objective starts
at infinity and is non-increasing: along the whole trajectory of
controller states each step either leaves `obj_opt` unchanged or
strictly decreases it.  Compliance observations of a genuine run are
nonnegative, being energies `f^T K^{-1} f` of a positive-definite
system. -/
theorem best_objective_monotone (VtN : Nat) (obs : List IterObs)
    (hpos : ∀ ob ∈ obs, 0 ≤ ob.obj) :
    convInit.objOpt = ⊤ ∧
    List.Chain' (fun a b : WithTop ℚ => b = a ∨ b < a)
      ((obs.scanl (convStep VtN) convInit).map ConvState.objOpt) :=
  ⟨rfl, convRun_chain VtN convInit obs hpos le_top⟩

/-- Witness for `best_objective_monotone` on a two-iteration run. -/
theorem best_objective_monotone_witness :
    convInit.objOpt = ⊤ ∧
    List.Chain' (fun a b : WithTop ℚ => b = a ∨ b < a)
      (([(⟨[true], 1, 2⟩ : IterObs), ⟨[true], 1, 1⟩].scanl
        (convStep 1) convInit).map ConvState.objOpt) :=
  best_objective_monotone 1 [⟨[true], 1, 2⟩, ⟨[true], 1, 1⟩]
    (by decide)

theorem convStep_inv (VtN : Nat) (s : ConvState) (ob : IterObs)
    (h : ConvInv s) : ConvInv (convStep VtN s ob) := by
  by_cases hk : s.keepGoing = true
  · by_cases hv : ob.vol = VtN
    · by_cases hi : improves ob.obj s.objOpt = true
      · have hnew : convStep VtN s ob
            = ⟨(ob.obj : WithTop ℚ), some ob.x, 0, true⟩ := by
          simp [convStep, hk, hv, hi]
        rw [hnew]
        exact ⟨fun _ => WithTop.coe_ne_top, fun _ => ⟨ob.x, rfl⟩⟩
      · have hne : s.objOpt ≠ ⊤ := by
          intro htop
          rw [htop, improves_top] at hi
          exact hi rfl
        have hnew : convStep VtN s ob
            = ⟨s.objOpt, s.xOpt, s.waiting + 1,
              if s.waiting + 1 = patience then false else true⟩ := by
          simp [convStep, hk, hv, hi]
        rw [hnew]
        exact ⟨fun _ => hne, fun _ => h.2 hne⟩
    · have hsame : convStep VtN s ob = s := by simp [convStep, hk, hv]
      rw [hsame]; exact h
  · have hsame : convStep VtN s ob = s := by simp [convStep, hk]
    rw [hsame]; exact h

theorem convRun_inv (VtN : Nat) (obs : List IterObs) (s : ConvState)
    (h : ConvInv s) : ConvInv (obs.foldl (convStep VtN) s) := by
  induction obs generalizing s with
  | nil => exact h
  | cons ob t ih => exact ih (convStep VtN s ob) (convStep_inv VtN s ob h)

/-- C10: whenever the controller reaches the terminal state, the
retained pair is defined and finite: `obj_opt` is a finite rational
(in the model every compliance is a rational, matching the claim's
finiteness premise) and `x_opt` holds a recorded topology, because the
infinite initial `obj_opt` makes the first target-volume iteration
pass the strict test before the wait counter can ever move. -/
theorem terminal_has_best (VtN : Nat) (obs : List IterObs)
    (hterm : (obs.foldl (convStep VtN) convInit).keepGoing = false) :
    (∃ q : ℚ, (obs.foldl (convStep VtN) convInit).objOpt
        = (q : WithTop ℚ)) ∧
    (∃ t, (obs.foldl (convStep VtN) convInit).xOpt = some t) := by
  have hinit : ConvInv convInit := by
    constructor
    · intro hcase
      rcases hcase with h1 | h2
      · exact absurd h1 (by decide)
      · exact absurd h2 (by decide)
    · intro htop
      exact absurd rfl htop
  have hinv := convRun_inv VtN obs convInit hinit
  have hne := hinv.1 (Or.inr hterm)
  refine ⟨?_, hinv.2 hne⟩
  obtain ⟨q, hq⟩ := WithTop.ne_top_iff_exists.mp hne
  exact ⟨q, hq.symm⟩

/-- Witness for `terminal_has_best`: twenty-one identical
target-volume observations drive the wait counter to `patience`. -/
theorem terminal_has_best_witness :
    ∃ q : ℚ, ((List.replicate 21 (⟨[true], 1, 1⟩ : IterObs)).foldl
      (convStep 1) convInit).objOpt = (q : WithTop ℚ) :=
  (terminal_has_best 1 (List.replicate 21 ⟨[true], 1, 1⟩) (by decide)).1

/-! ## Incremental factorization vs direct assembly (claim C1) -/

theorem penalty_replicate (N : Nat) :
    penalty (List.replicate N true) = List.replicate N 1 := by
  simp [penalty, List.map_replicate]

theorem engineStep_coef (VtN dV : Nat) (dX : ℚ) (ld : List Nat)
    (s : EngineState) (af : List ℚ) (h : s.fcoef = penalty s.x) :
    (engineStep VtN dV dX ld s af).fcoef
      = penalty (engineStep VtN dV dX ld s af).x := by
  have hspec :=
    updateTopology_x_spec VtN dV dX (momentumStep ld s.m af) s.x
  show applyUpdates s.fcoef
      (updateTopology VtN dV dX (momentumStep ld s.m af) s.x) = _
  rw [h]
  exact hspec.2.2.1

theorem engineRun_coef_aux (VtN dV : Nat) (dX : ℚ) (ld : List Nat)
    (afs : List (List ℚ)) (s : EngineState) (h : s.fcoef = penalty s.x) :
    (afs.foldl (engineStep VtN dV dX ld) s).fcoef
      = penalty ((afs.foldl (engineStep VtN dV dX ld) s).x) := by
  induction afs generalizing s with
  | nil => exact h
  | cons af t ih => exact ih _ (engineStep_coef VtN dV dX ld s af h)

/-- C1: for every reachable topology of a run, the matrix represented
by the incrementally updated factorization (initialized from the full
factorization of the all-solid reduced matrix, with a subtract-update
for every removal and an add-update for every insertion) coincides,
coefficient by coefficient, with the reduced matrix assembled directly
from the current topology.  In this exact-arithmetic model the
equality is exact, which is within every floating-point tolerance. -/
theorem incremental_factor_matches_assembly (Ny : Nat) (ld : List Nat)
    (afs : List (List ℚ)) :
    (engineRun Ny ld afs).fcoef = penalty ((engineRun Ny ld afs).x) :=
  engineRun_coef_aux (Vt Ny) (dVmax Ny) (dXmax Ny) ld afs
    (engineInit (Nelems Ny)) (penalty_replicate (Nelems Ny)).symm

/-! ## Load-band elements are pinned solid (claim C8) -/

theorem countP_not_split {α : Type} (p : α → Bool) (l : List α) :
    l.countP p + l.countP (fun a => !p a) = l.length := by
  induction l with
  | nil => rfl
  | cons a t ih =>
    by_cases h : p a = true <;>
      simp [List.countP_cons, h] <;> omega

theorem nodup_subset_length {l₁ l₂ : List Nat} (h1 : l₁.Nodup)
    (hsub : ∀ a ∈ l₁, a ∈ l₂) : l₁.length ≤ l₂.length := by
  calc l₁.length = l₁.toFinset.card :=
        (List.toFinset_card_of_nodup h1).symm
    _ ≤ l₂.toFinset.card := by
        apply Finset.card_le_card
        intro a ha
        rw [List.mem_toFinset] at ha ⊢
        exact hsub a ha
    _ ≤ l₂.length := List.toFinset_card_le l₂

theorem getD_map_range {α : Type} {n e : Nat} (d : α) (f : Nat → α)
    (h : e < n) : ((List.range n).map f).getD e d = f e := by
  rw [List.getD_eq_getElem?_getD, List.getElem?_map, List.getElem?_range h]
  rfl

theorem momentumStep_ld {ld : List Nat} {mPrev : Sens} {af : List ℚ}
    {e : Nat} (he : e ∈ ld) (hlt : e < af.length) :
    (momentumStep ld mPrev af).getD e ⊥ = ⊥ := by
  rw [momentumStep]
  rw [getD_map_range ⊥ _ hlt]
  rw [if_pos he]

theorem momentumStep_not_ld {ld : List Nat} {mPrev : Sens} {af : List ℚ}
    {e : Nat} (he : e ∉ ld) (hlt : e < af.length) :
    ⊥ < (momentumStep ld mPrev af).getD e ⊥ := by
  rw [momentumStep]
  rw [getD_map_range ⊥ _ hlt]
  rw [if_neg he]
  exact WithBot.bot_lt_coe _

theorem sortedSolid_sorted (m : Sens) (x : List Bool) :
    List.Sorted (mle m) (sortedSolid m x) := by
  haveI : IsTotal Nat (mle m) := ⟨fun a b => le_total (mval m a) (mval m b)⟩
  haveI : IsTrans Nat (mle m) :=
    ⟨fun _ _ _ hab hbc => le_trans hab hbc⟩
  exact List.sorted_insertionSort (mle m) (solidList x)

theorem removed_avoids_bot (VtN dV : Nat) (m : Sens) (x : List Bool)
    (ld : List Nat)
    (hbot : ∀ a ∈ solidList x, mval m a = ⊥ → a ∈ ld)
    (hk : ld.length ≤ VtN) (hvol : VtN ≤ (solidList x).length) :
    ∀ e ∈ removedList VtN dV m x, mval m e ≠ ⊥ := by
  intro e he hbe
  have hsorted : (descSolid m x).Pairwise
      (fun a b => mval m b ≤ mval m a) := by
    rw [descSolid, List.pairwise_reverse]
    exact sortedSolid_sorted m x
  have hsplit := List.take_append_drop
    (redCount VtN dV (solidList x).length) (descSolid m x)
  rw [← hsplit] at hsorted
  have hcross := (List.pairwise_append.mp hsorted).2.2
  have hdropbot : ∀ b ∈ (descSolid m x).drop
      (redCount VtN dV (solidList x).length), mval m b = ⊥ := by
    intro b hb
    have := hcross e he b hb
    rw [hbe] at this
    exact le_bot_iff.mp this
  have pb : Nat → Bool := fun a => decide (mval m a = ⊥)
  have hdrop0 : ((descSolid m x).drop
      (redCount VtN dV (solidList x).length)).countP
        (fun a => !(decide (mval m a = ⊥))) = 0 := by
    rw [List.countP_eq_zero]
    intro b hb
    simp [hdropbot b hb]
  have htake1 : 0 < (removedList VtN dV m x).countP
      (fun a => decide (mval m a = ⊥)) := by
    rw [List.countP_pos_iff]
    exact ⟨e, he, by simp [hbe]⟩
  have htake_split := countP_not_split
    (fun a => decide (mval m a = ⊥)) (removedList VtN dV m x)
  have hdesc_split : (descSolid m x).countP
        (fun a => !(decide (mval m a = ⊥)))
      = (removedList VtN dV m x).countP
          (fun a => !(decide (mval m a = ⊥)))
        + ((descSolid m x).drop
            (redCount VtN dV (solidList x).length)).countP
            (fun a => !(decide (mval m a = ⊥))) := by
    conv_lhs => rw [← hsplit]
    rw [List.countP_append, removedList]
  have hperm : (descSolid m x).countP (fun a => !(decide (mval m a = ⊥)))
      = (solidList x).countP (fun a => !(decide (mval m a = ⊥))) :=
    (descSolid_perm m x).countP_eq _
  have hsolid_split := countP_not_split
    (fun a => decide (mval m a = ⊥)) (solidList x)
  have hsolid_bot_le : (solidList x).countP
      (fun a => decide (mval m a = ⊥)) ≤ ld.length := by
    rw [List.countP_eq_length_filter]
    apply nodup_subset_length ((nodup_solidList x).filter _)
    intro a ha
    rw [List.mem_filter] at ha
    exact hbot a ha.1 (of_decide_eq_true ha.2)
  have hremlen : (removedList VtN dV m x).length
      = redCount VtN dV (solidList x).length :=
    removedList_length VtN dV m x
  have hcnt_le : redCount VtN dV (solidList x).length
      ≤ (solidList x).length - VtN := Nat.min_le_left _ _
  omega

theorem engineStep_load_inv (N VtN dV : Nat) (dX : ℚ) (ld : List Nat)
    (hldN : ∀ e ∈ ld, e < N) (hk : ld.length ≤ VtN)
    (s : EngineState) (af : List ℚ) (hafN : af.length = N)
    (hinv : LoadInv N VtN ld s) :
    LoadInv N VtN ld (engineStep VtN dV dX ld s af) := by
  obtain ⟨hlen, hsolid, hvol⟩ := hinv
  have hspec :=
    updateTopology_x_spec VtN dV dX (momentumStep ld s.m af) s.x
  have hbot : ∀ a ∈ solidList s.x,
      mval (momentumStep ld s.m af) a = ⊥ → a ∈ ld := by
    intro a ha hba
    by_contra han
    have halt : a < af.length := by
      rw [hafN, ← hlen]
      exact (mem_solidList.mp ha).1
    have hcontra := @momentumStep_not_ld ld s.m af a han halt
    rw [show (momentumStep ld s.m af).getD a ⊥
        = mval (momentumStep ld s.m af) a from rfl, hba] at hcontra
    exact lt_irrefl ⊥ hcontra
  have hrem : ∀ e ∈ ld, e ∉ removedList VtN dV (momentumStep ld s.m af) s.x := by
    intro e he hin
    have hlt : e < af.length := by rw [hafN]; exact hldN e he
    exact removed_avoids_bot VtN dV (momentumStep ld s.m af) s.x ld hbot
      hk hvol e hin (momentumStep_ld he hlt)
  have hswap : ∀ e ∈ ld,
      ∀ p ∈ swapList VtN dV dX (momentumStep ld s.m af) s.x,
        e ≠ p.1 ∧ e ≠ p.2 := by
    intro e he p hp
    have hvd := mem_swapList_void hp
    have hlt : e < af.length := by rw [hafN]; exact hldN e he
    constructor
    · intro hEq
      have hguard := swapList_guard hp
      have hlt2 : p.2 < af.length := by
        rw [hafN, ← hlen]
        exact (mem_voidList.mp hvd).1
      have hnot2 : p.2 ∉ ld := by
        intro hin2
        have := hsolid p.2 hin2
        rw [(mem_voidList.mp hvd).2] at this
        cases this
      have h1 : mval (momentumStep ld s.m af) p.1 = ⊥ := by
        rw [← hEq]
        exact momentumStep_ld he hlt
      have h2 : ⊥ < mval (momentumStep ld s.m af) p.2 :=
        momentumStep_not_ld hnot2 hlt2
      rw [h1] at hguard
      exact hguard h2
    · intro hEq
      have := hsolid e he
      rw [hEq, (mem_voidList.mp hvd).2] at this
      cases this
  refine ⟨?_, ?_, ?_⟩
  · show (updateTopology VtN dV dX (momentumStep ld s.m af) s.x).x.length = N
    rw [hspec.1, hlen]
  · intro e he
    show (updateTopology VtN dV dX (momentumStep ld s.m af) s.x).x.getD e false
        = true
    rw [hspec.2.2.2 e (hrem e he) (hswap e he)]
    exact hsolid e he
  · show VtN ≤ (solidList
      (updateTopology VtN dV dX (momentumStep ld s.m af) s.x).x).length
    have h1 := hspec.2.1
    have h2 : redCount VtN dV (solidList s.x).length
        ≤ (solidList s.x).length - VtN := Nat.min_le_left _ _
    omega

theorem engineRun_load_inv (N VtN dV : Nat) (dX : ℚ) (ld : List Nat)
    (hldN : ∀ e ∈ ld, e < N) (hk : ld.length ≤ VtN)
    (afs : List (List ℚ)) (haf : ∀ af ∈ afs, af.length = N)
    (s : EngineState) (hinv : LoadInv N VtN ld s) :
    LoadInv N VtN ld (afs.foldl (engineStep VtN dV dX ld) s) := by
  induction afs generalizing s with
  | nil => exact hinv
  | cons af t ih =>
    exact ih (fun a ha => haf a (List.mem_cons_of_mem _ ha)) _
      (engineStep_load_inv N VtN dV dX ld hldN hk s af
        (haf af (List.mem_cons_self af t)) hinv)

theorem solidList_replicate_true (N : Nat) :
    solidList (List.replicate N true) = List.range N := by
  rw [solidList, List.length_replicate]
  apply List.filter_eq_self.mpr
  intro a ha
  rw [List.getD_eq_getElem?_getD, List.getElem?_replicate,
    if_pos (List.mem_range.mp ha)]
  rfl

/-- C8: with the load-band elements below the target-volume count,
every momentum step pins their smoothed sensitivities to the bottom
sentinel, strictly below every other element's value, the
volume-reduction loop and the swap loop never select them, and they
remain solid through the entire run from the all-solid initial
topology. -/
theorem load_band_stays_solid (Ny : Nat) (ld : List Nat)
    (hldN : ∀ e ∈ ld, e < Nelems Ny) (hk : ld.length ≤ Vt Ny)
    (afs : List (List ℚ)) (haf : ∀ af ∈ afs, af.length = Nelems Ny) :
    (∀ e ∈ ld, (engineRun Ny ld afs).x.getD e false = true) ∧
    (∀ mPrev af, af.length = Nelems Ny →
      (∀ e ∈ ld, (momentumStep ld mPrev af).getD e ⊥ = ⊥) ∧
      (∀ e, e < Nelems Ny → e ∉ ld →
        ⊥ < (momentumStep ld mPrev af).getD e ⊥)) := by
  constructor
  · have hinit : LoadInv (Nelems Ny) (Vt Ny) ld (engineInit (Nelems Ny)) := by
      refine ⟨List.length_replicate _ _, ?_, ?_⟩
      · intro e he
        show (List.replicate (Nelems Ny) true).getD e false = true
        rw [List.getD_eq_getElem?_getD, List.getElem?_replicate,
          if_pos (hldN e he)]
        rfl
      · show Vt Ny ≤ (solidList (List.replicate (Nelems Ny) true)).length
        rw [solidList_replicate_true, List.length_range]
        exact Nat.div_le_self _ _
    exact (engineRun_load_inv (Nelems Ny) (Vt Ny) (dVmax Ny) (dXmax Ny)
      ld hldN hk afs haf (engineInit (Nelems Ny)) hinit).2.1
  · intro mPrev af hlen
    constructor
    · intro e he
      exact momentumStep_ld he (by rw [hlen]; exact hldN e he)
    · intro e helt hen
      exact momentumStep_not_ld hen (by rw [hlen]; exact helt)

/-- Witness for `load_band_stays_solid`: a one-element load band on the
`Ny = 1` mesh survives an iteration driven by a concrete filtered
sensitivity vector. -/
theorem load_band_stays_solid_witness :
    (engineRun 1 [1] [[(1 : ℚ), (2 : ℚ)]]).x.getD 1 false = true :=
  (load_band_stays_solid 1 [1] (by decide) (by decide)
    [[(1 : ℚ), (2 : ℚ)]] (by decide)).1 1 (by decide)

end Beso
